import Mathlib

/-!
Verification development for the NIQE / IL-NIQE metric implementation in
pyiqa/archs/niqe_arch.py.  The Python pipeline is shallowly embedded over
exact rational arithmetic: a floating-point scalar is modelled as
Option Rat, where none stands for IEEE NaN and some q for a finite value.
Fallible tensor operations (assertions, invalid reshapes, stacking an
empty list) are modelled in the Except String monad.  Numeric routines
that live outside the embedded file (the AGGD estimator, the Weibull
fit, lgamma and exp, the pseudo-inverse, the square root, the Gaussian
normalization and the antialiasing resize kernel) enter as explicit
function parameters, so every claim is settled for all of their
instantiations.
-/

namespace NiqeArch

/-- Scalar value of a floating-point tensor cell: none models IEEE NaN,
some q a finite value. -/
abbrev OQ := Option ℚ

/-- NaN-propagating addition. -/
def oadd : OQ → OQ → OQ
  | some x, some y => some (x + y)
  | _, _ => none

/-- NaN-propagating subtraction. -/
def osub : OQ → OQ → OQ
  | some x, some y => some (x - y)
  | _, _ => none

/-- NaN-propagating multiplication. -/
def omul : OQ → OQ → OQ
  | some x, some y => some (x * y)
  | _, _ => none

/-- NaN-propagating halving, modelling division of a tensor by the scalar 2. -/
def ohalf (a : OQ) : OQ := a.map (fun q => q / 2)

/-- Feature vectors are lists of rationals. -/
abbrev Vec := List ℚ

/-- Matrices are lists of row vectors. -/
abbrev Mat := List (List ℚ)

/-- Dot product of two vectors. -/
def dot (u v : Vec) : ℚ := (List.zipWith (fun a b => a * b) u v).sum

/-- Componentwise difference of two vectors. -/
def vsub (u v : Vec) : Vec := List.zipWith (fun a b => a - b) u v

/-- Componentwise sum of two vectors. -/
def vadd (u v : Vec) : Vec := List.zipWith (fun a b => a + b) u v

/-- Componentwise negation of a vector. -/
def vneg (u : Vec) : Vec := u.map (fun a => -a)

/-- Matrix-vector product, one dot product per row. -/
def matVec (M : Mat) (v : Vec) : Vec := M.map (fun row => dot row v)

/-- Quadratic form v . (M v), the Mahalanobis kernel of the comparator. -/
def quadForm (M : Mat) (v : Vec) : ℚ := dot v (matVec M v)

/-- Entrywise sum of two matrices. -/
def madd (A B : Mat) : Mat := List.zipWith vadd A B

/-- Entrywise halving of a matrix, modelling division by the scalar 2. -/
def mhalf (A : Mat) : Mat := A.map (fun r => r.map (fun q => q / 2))

/-- Modelled from the spec: nanmean (pyiqa.archs.func_util, not under src/).
Mean of the valid (non-NaN) entries of a slice; NaN when the slice holds no
valid entry.  This is the standard nanmean contract the code relies on for
its NaN-excluded mean. -/
def nanmeanL (l : List OQ) : OQ :=
  let vals := l.filterMap id
  if vals.isEmpty then none else some (vals.sum / vals.length)

/-- Column j of a block-feature matrix (rows are blocks), out-of-range
entries read as NaN. -/
def colOf (M : List (List OQ)) (j : ℕ) : List OQ := M.map (fun r => r.getD j none)

/-- The nanmean of a block-feature matrix along the block dimension:
one NaN-excluded mean per feature column. -/
def nanmean_cols (M : List (List OQ)) : List OQ :=
  (List.range (M.headD []).length).map (fun j => nanmeanL (colOf M j))

/-- torch.nan_to_num with default arguments: every NaN entry becomes 0,
finite entries are unchanged. -/
def nan_to_num (M : List (List OQ)) : Mat := M.map (fun r => r.map (fun o => o.getD 0))

/-- Mean of column j of a plain matrix. -/
def colMean (M : Mat) (j : ℕ) : ℚ := (M.map (fun r => r.getD j 0)).sum / M.length

/-- Modelled from the spec: torch_cov (pyiqa.archs.func_util, not under
src/) — the unbiased sample covariance of its input, observations as rows,
centered internally by the column means and scaled by 1/(n-1). -/
def sample_cov (M : Mat) : Mat :=
  let n := M.length
  let p := (M.headD []).length
  let C := M.map (fun r => (List.range p).map (fun j => r.getD j 0 - colMean M j))
  (List.range p).map (fun i => (List.range p).map (fun j =>
    (C.map (fun r => r.getD i 0 * r.getD j 0)).sum / ((n : ℚ) - 1)))

/-- Lines 144-145: the fitted mean of the distorted-image features,
nanmean over the block dimension. -/
def niqe_fit_mu (distparam : List (List OQ)) : List OQ := nanmean_cols distparam

/-- Lines 147-148: the fitted covariance of the distorted-image features,
computed on the NaN-to-zero filled matrix. -/
def niqe_fit_cov (distparam : List (List OQ)) : Mat := sample_cov (nan_to_num distparam)

/-- Pointwise difference between a finite reference vector and a possibly
NaN-holding vector, NaN propagating. -/
def ozipSub (u : Vec) (v : List OQ) : List OQ :=
  List.zipWith (fun x o => o.map (fun y => x - y)) u v

/-- Collect the finite values of a list of scalars: NaN (none) as soon as
any entry is NaN, the list of values otherwise. -/
def allSome : List OQ → Option (List ℚ)
  | [] => some []
  | none :: _ => none
  | some x :: rest => (allSome rest).map (fun l => x :: l)

/-- Quadratic form on a possibly NaN-holding vector: NaN as soon as any
coordinate is NaN, otherwise the finite quadratic form. -/
def oquadForm (M : Mat) (v : List OQ) : OQ := (allSome v).map (quadForm M)

/-- Lines 150-157 of niqe: combine the reference model with the fitted
model and evaluate the Mahalanobis distance.  sqrtFn abstracts torch.sqrt
and pinvFn abstracts torch.linalg.pinv (the Moore-Penrose pseudo-inverse,
total also on singular input). -/
def niqe_quality (sqrtFn : ℚ → ℚ) (pinvFn : Mat → Mat) (mu_pris : Vec) (cov_pris : Mat)
    (distparam : List (List OQ)) : OQ :=
  let invcov := pinvFn (mhalf (madd cov_pris (niqe_fit_cov distparam)))
  let diff := ozipSub mu_pris (niqe_fit_mu distparam)
  (oquadForm invcov diff).map sqrtFn

/-- The distance stage of lines 151-156 exposed over its fitted inputs:
diff is mu_pris - mu_dist exactly as in the code, the covariance
combination is the average of reference and sample covariance. -/
def niqe_distance (sqrtFn : ℚ → ℚ) (pinvFn : Mat → Mat) (mu_pris mu_dist : Vec)
    (cov_pris cov_dist : Mat) : ℚ :=
  sqrtFn (quadForm (pinvFn (mhalf (madd cov_pris cov_dist))) (vsub mu_pris mu_dist))

/-- Spec-side Mahalanobis formula, written from the specification words:
sqrt of diff . pinv((cov_ref + cov_sample)/2) . diff with diff the sample
mean minus the reference mean. -/
def mahalanobis_spec (sqrtFn : ℚ → ℚ) (pinvFn : Mat → Mat) (mu_ref mu_sample : Vec)
    (cov_ref cov_sample : Mat) : ℚ :=
  sqrtFn (quadForm (pinvFn (mhalf (madd cov_ref cov_sample))) (vsub mu_sample mu_ref))

/-- A 4-dimensional tensor (batch, channels, height, width) with a total
indexing function for its pixel samples. -/
structure T4 where
  b : ℕ
  c : ℕ
  h : ℕ
  w : ℕ
  data : ℕ → ℕ → ℕ → ℕ → ℚ

/-- An input tensor of arbitrary rank: either a genuine 4-dimensional
image batch or a tensor of some other rank (only its ndim matters to the
entry assertion). -/
inductive PyTensor where
  | mk4 (t : T4)
  | mkOther (ndim : ℕ)

/-- Slicing img[..., 0:nh, 0:nw]: restrict the spatial extent. -/
def cropHW (t : T4) (nh nw : ℕ) : T4 := { t with h := nh, w := nw }

/-- Modelled from the spec: imresize (pyiqa.matlab_utils, not under src/)
at scale 0.5 with antialiasing — it halves each spatial dimension (floor)
and fills pixels through the antialiasing kernel parameter ker; the
division and re-multiplication by 255 around the call in niqe are pure
rescalings absorbed into ker. -/
def halfResize (ker : T4 → ℕ → ℕ → ℕ → ℕ → ℚ) (t : T4) : T4 :=
  { b := t.b, c := t.c, h := t.h / 2, w := t.w / 2, data := ker t }

/-- torch.roll of a 2-D map by shift s over dims (2, 3): circular shift,
the output at (y, x) reads the input at ((y - s.1) mod h, (x - s.2) mod w). -/
def roll2 (h w : ℕ) (s : ℤ × ℤ) (f : ℕ → ℕ → ℚ) : ℕ → ℕ → ℚ :=
  fun y x => f ((((y : ℤ) - s.1) % (h : ℤ)).toNat) ((((x : ℤ) - s.2) % (w : ℤ)).toNat)

/-- Numeric primitives of the feature extractor that live outside the
embedded file and enter as parameters:
aggd models estimate_aggd_param (pyiqa.archs.func_util, not under src/),
mapping the height, width and data of one 2-D coefficient map to the
fitted (alpha, beta_l, beta_r), any of which may be NaN on degenerate
input; weib models fitweibull (pyiqa.matlab_utils, not under src/),
mapping a flattened sample list to the fitted (shape, scale); gamExp
models alpha converted through exp(lgamma(2/alpha) - lgamma(1/alpha)). -/
structure Prims where
  aggd : ℕ → ℕ → (ℕ → ℕ → ℚ) → OQ × OQ × OQ
  weib : List ℚ → OQ × OQ
  gamExp : ℚ → ℚ

/-- The four neighbour shifts of compute_feature, in source order:
[[0, 1], [1, 0], [1, 1], [1, -1]]. -/
def shifts : List (ℤ × ℤ) := [(0, 1), (1, 0), (1, 1), (1, -1)]

/-- Row-major flattening of channel ch of batch element i of a tensor. -/
def flattenCh (t : T4) (i ch : ℕ) : List ℚ :=
  (List.range t.h).flatMap (fun y => (List.range t.w).map (fun x => t.data i ch y x))

/-- torch.mean over the spatial dims of one channel. -/
def chMean (t : T4) (i ch : ℕ) : ℚ := (flattenCh t i ch).sum / ((t.h : ℚ) * t.w)

/-- torch.var (unbiased) over the spatial dims of one channel. -/
def chVar (t : T4) (i ch : ℕ) : ℚ :=
  ((flattenCh t i ch).map (fun x => (x - chMean t i ch) ^ 2)).sum / ((t.h : ℚ) * t.w - 1)

/-- Split a flat list into rows of length len, row-major. -/
def chunkRows (len : ℕ) (l : List ℚ) : List (List ℚ) :=
  (List.range (l.length / len)).map (fun r => (l.drop (r * len)).take len)

/-- torch reshape to (rows, -1): fails on a tensor of 0 elements (the
inferred dimension is rejected) and when rows does not divide the element
count; otherwise chunks the row-major data. -/
def reshapeRows (rows : ℕ) (l : List ℚ) : Except String (List (List ℚ)) :=
  if l.length = 0 then Except.error "cannot reshape tensor of 0 elements"
  else if rows = 0 ∨ ¬ rows ∣ l.length then Except.error "invalid shape"
  else Except.ok (chunkRows (l.length / rows) l)

/-- Lines 47-63 of compute_feature for batch element i: AGGD fit of the
primary channel, then the (alpha, mean, beta_l, beta_r) quadruple for the
product with each of the four rolled copies. -/
def simpleFeats (P : Prims) (blk : T4) (i : ℕ) : List OQ :=
  let m0 := fun y x => blk.data i 0 y x
  let f0 := P.aggd blk.h blk.w m0
  [f0.1, ohalf (oadd f0.2.1 f0.2.2)] ++
    shifts.flatMap (fun s =>
      let fs := P.aggd blk.h blk.w (fun y x => m0 y x * roll2 blk.h blk.w s m0 y x)
      [fs.1, omul (osub fs.2.2 fs.2.1) (fs.1.map P.gamExp), fs.2.1, fs.2.2])

/-- Lines 65-90 of compute_feature, the extension computed only when the
ilniqe flag is truthy: Weibull fits of channels 1:4 (reshaped to 3*bsz
rows), mean/variance of channels 4:7, AGGD fits of channels 7:85
(hard-coded 78 channels) and Weibull fits of channels 85:109 (hard-coded
24 channels), per batch element. -/
def richExtra (P : Prims) (blk : T4) : Except String (List (List OQ)) :=
  let cnt14 := min 4 blk.c - 1
  let flat14 := (List.range blk.b).flatMap (fun i =>
    (List.range cnt14).flatMap (fun ch => flattenCh blk i (1 + ch)))
  match reshapeRows (blk.b * 3) flat14 with
  | Except.error e => Except.error e
  | Except.ok rows14 =>
    let ws14 := rows14.map P.weib
    let scaleShape14 := fun (i : ℕ) => (List.range 3).flatMap (fun k =>
      let p := ws14.getD (3 * i + k) (none, none)
      [p.2, p.1])
    let cnt47 := min 7 blk.c - 4
    let muSigma := fun (i : ℕ) => (List.range cnt47).flatMap (fun ch =>
      [some (chMean blk i (4 + ch)), some (chVar blk i (4 + ch))])
    let cnt785 := min 85 blk.c - 7
    if blk.b * cnt785 * blk.h * blk.w ≠ blk.b * 78 * blk.h * blk.w then
      Except.error "invalid shape"
    else
      let alphaBeta := fun (i : ℕ) => (List.range 78).flatMap (fun ch =>
        let t := P.aggd blk.h blk.w (fun y x => blk.data i (7 + ch) y x)
        [t.1, ohalf (oadd t.2.1 t.2.2)])
      let cnt85 := min 109 blk.c - 85
      let flat85 := (List.range blk.b).flatMap (fun i =>
        (List.range cnt85).flatMap (fun ch => flattenCh blk i (85 + ch)))
      match reshapeRows (blk.b * 24) flat85 with
      | Except.error e => Except.error e
      | Except.ok rows85 =>
        let ws85 := rows85.map P.weib
        let scaleShape85 := fun (i : ℕ) => (List.range 24).flatMap (fun k =>
          let p := ws85.getD (24 * i + k) (none, none)
          [p.2, p.1])
        Except.ok ((List.range blk.b).map (fun i =>
          scaleShape14 i ++ muSigma i ++ alphaBeta i ++ scaleShape85 i))

/-- compute_feature (lines 38-93): per batch element, the 18 simple
features, extended by the rich features when the ilniqe argument is
truthy. -/
def compute_feature (P : Prims) (block : T4) (ilniqe : Bool) : Except String (List (List OQ)) :=
  let base := (List.range block.b).map (simpleFeats P block)
  if ilniqe then
    match richExtra P block with
    | Except.error e => Except.error e
    | Except.ok extra => Except.ok (List.zipWith (fun a b => a ++ b) base extra)
  else Except.ok base

/-- Line 116/117: number of blocks along one spatial dimension,
math.floor(len / block_size). -/
def num_blocks (len bs : ℕ) : ℕ := len / bs

/-- Start index of a block at a pyramid scale: idx * block_size // scale. -/
def blockStart (idx bs scale : ℕ) : ℕ := idx * bs / scale

/-- End index of a block at a pyramid scale: (idx + 1) * block_size // scale. -/
def blockEnd (idx bs scale : ℕ) : ℕ := (idx + 1) * bs / scale

/-- Lines 130-133: the block_pos list [row start, row end, col start,
col end] built for each block. -/
def blockPos (ih iw bsh bsw scale : ℕ) : List ℕ :=
  [blockStart ih bsh scale, blockEnd ih bsh scale, blockStart iw bsw scale, blockEnd iw bsw scale]

/-- Python truthiness of a list: non-empty lists are truthy.  This is how
a list argument is read when it is bound to a bool-annotated parameter. -/
def pyTruthy (l : List ℕ) : Bool := !l.isEmpty

/-- Line 134 of niqe, one loop body: the call
compute_feature(img_normalized, block_pos).  The second positional
argument block_pos is bound to the ilniqe parameter of compute_feature
and is read for its truthiness; the full normalized map is passed as the
block argument. -/
def niqe_block_feat (P : Prims) (imgNorm : T4) (pos : List ℕ) : Except String (List (List OQ)) :=
  compute_feature P imgNorm (pyTruthy pos)

/-- torch.stack(feat).transpose(0, 1): regroup a per-block list of
per-batch feature rows into a per-batch list of per-block rows. -/
def transpose01 (xss : List (List (List OQ))) : List (List (List OQ)) :=
  (List.range (xss.headD []).length).map (fun i => xss.map (fun blkRes => blkRes.getD i []))

/-- Lines 122-136 of niqe for one pyramid scale: normalize the image
(normFn abstracts normalize_img_with_guass, pyiqa.archs.func_util, not
under src/), walk the block grid in column-major order, extract features
per block, and stack; stacking an empty feature list raises. -/
def niqe_scale_feats (P : Prims) (normFn : T4 → T4) (img : T4) (nbh nbw bsh bsw scale : ℕ) :
    Except String (List (List (List OQ))) := do
  let imgN := normFn img
  let posList := (List.range nbw).flatMap (fun iw =>
    (List.range nbh).map (fun ih => blockPos ih iw bsh bsw scale))
  let feats ← posList.mapM (niqe_block_feat P imgN)
  if feats.isEmpty then Except.error "stack expects a non-empty TensorList"
  else pure (transpose01 feats)

/-- The message of the entry assertion of niqe (line 113). -/
def assertMsg : String := "Input image must be a gray or Y (of YCbCr) image with shape (b, c, h, w)."

/-- The niqe function (lines 96-157): assert 4-dimensional input, crop to
whole blocks, extract features at scales 1 and 2 (downsampling by half in
between), concatenate the per-scale features along the feature axis and
evaluate the comparator per batch element. -/
def niqe_run (P : Prims) (normFn : T4 → T4) (dsKer : T4 → ℕ → ℕ → ℕ → ℕ → ℚ)
    (sqrtFn : ℚ → ℚ) (pinvFn : Mat → Mat) (mu_pris : Vec) (cov_pris : Mat)
    (bsh bsw : ℕ) (input : PyTensor) : Except String (List OQ) :=
  match input with
  | PyTensor.mkOther _ => Except.error assertMsg
  | PyTensor.mk4 img0 => do
    let nbh := num_blocks img0.h bsh
    let nbw := num_blocks img0.w bsw
    let img1 := cropHW img0 (nbh * bsh) (nbw * bsw)
    let f1 ← niqe_scale_feats P normFn img1 nbh nbw bsh bsw 1
    let img2 := halfResize dsKer img1
    let f2 ← niqe_scale_feats P normFn img2 nbh nbw bsh bsw 2
    let distparam := List.zipWith (fun a b => List.zipWith (fun x y => x ++ y) a b) f1 f2
    pure (distparam.map (fun D => niqe_quality sqrtFn pinvFn mu_pris cov_pris D))

/-- Whether an Except value is an error. -/
def isErr {α : Type} : Except String α → Bool
  | Except.error _ => true
  | Except.ok _ => false

/-- Border cropping of calculate_niqe (lines 683-684): a no-op for
crop_border = 0, otherwise img[..., cb:-cb, cb:-cb]. -/
def cropBorderT4 (cb : ℕ) (t : T4) : T4 :=
  if cb = 0 then t
  else { b := t.b, c := t.c, h := t.h - 2 * cb, w := t.w - 2 * cb,
         data := fun i ch y x => t.data i ch (y + cb) (x + cb) }

/-- calculate_niqe (lines 654-688): convert to the Y channel (toY
abstracts to_y_channel, pyiqa.utils.color_util, not under src/) when
test_y_channel is set and the input has 3 channels, crop the border, and
run niqe with the loaded reference model and the default 96x96 blocks. -/
def calculate_niqe (P : Prims) (normFn : T4 → T4) (dsKer : T4 → ℕ → ℕ → ℕ → ℕ → ℚ)
    (sqrtFn : ℚ → ℚ) (pinvFn : Mat → Mat) (toY : T4 → T4)
    (mu_pris : Vec) (cov_pris : Mat) (cropBorder : ℕ) (testYChannel : Bool)
    (img : T4) : Except String (List OQ) :=
  let img1 := if testYChannel && (img.c == 3) then toY img else img
  let img2 := cropBorderT4 cropBorder img1
  niqe_run P normFn dsKer sqrtFn pinvFn mu_pris cov_pris 96 96 (PyTensor.mk4 img2)

/-- Line 860: values strictly above the infinity constant 10000 are set
to the constant; comparisons with NaN are false, so NaN is unchanged. -/
def clipQ (q : ℚ) : ℚ := if q > 10000 then 10000 else q

/-- The clip of line 860 on a possibly NaN scalar. -/
def oclip (o : OQ) : OQ := o.map clipQ

/-- Matrix transpose (rectangular input), used for
principleVectors.transpose(1, 2). -/
def transposeM (M : Mat) : Mat :=
  (List.range (M.headD []).length).map (fun j => M.map (fun r => r.getD j 0))

/-- Subtraction of a finite vector from a possibly NaN row, NaN
propagating (row - meanOfSampleData and row - mu_pris_param). -/
def osubv (row : List OQ) (m : Vec) : List OQ :=
  List.zipWith (fun o x => o.map (fun q => q - x)) row m

/-- Dot product of a finite vector with a possibly NaN vector: NaN as
soon as any entry is NaN. -/
def odotRow (u : Vec) (v : List OQ) : OQ := (allSome v).map (dot u)

/-- Line 863 for one block row: subtract the reference sample mean and
project through the PCA basis (one coordinate per column of
principleVectors). -/
def ilniqe_project (PV : Mat) (meanSample : Vec) (row : List OQ) : List OQ :=
  (transposeM PV).map (fun pvr => odotRow pvr (osubv row meanSample))

/-- Whether a block row holds any NaN entry (torch.isnan(...).any(dim=2)). -/
def rowHasNone (r : List OQ) : Bool := r.any (fun o => o.isNone)

/-- Line 868-869: keep only the rows without NaN. -/
def dropNanRows (M : List (List OQ)) : List (List OQ) := M.filter (fun r => !rowHasNone r)

/-- Extract the finite values of rows that hold no NaN. -/
def forceQ (M : List (List OQ)) : Mat := M.map (fun r => r.map (fun o => o.getD 0))

/-- Line 874: torch.where(isnan(x), mu, x) — replace each NaN entry by
the corresponding entry of the per-feature nanmean. -/
def replaceNone (row mu : List OQ) : List OQ :=
  List.zipWith (fun o m => match o with | some q => some q | none => m) row mu

/-- torch.mean over a list of possibly NaN scalars: NaN as soon as any
entry is NaN. -/
def omean (l : List OQ) : OQ := (allSome l).map (fun v => v.sum / (v.length : ℚ))

/-- Lines 859-880 of the authoritative (last) ilniqe: clip the raw
feature matrix at the infinity constant, project through the reference
PCA model, fit mean/covariance with NaN masking, and average the
per-block Mahalanobis distances against the reference model. -/
def ilniqe_score (sqrtFn : ℚ → ℚ) (pinvFn : Mat → Mat) (mu_pris : Vec) (cov_pris : Mat)
    (PV : Mat) (meanSample : Vec) (distparam : List (List OQ)) : OQ :=
  let clipped := distparam.map (fun r => r.map oclip)
  let final := clipped.map (fun r => ilniqe_project PV meanSample r)
  let covd := sample_cov (forceQ (dropNanRows final))
  let mu := nanmean_cols final
  let withmu := final.map (fun r => replaceNone r mu)
  let invcov := pinvFn (mhalf (madd cov_pris covd))
  let dists := withmu.map (fun r => (oquadForm invcov (osubv r mu_pris)).map sqrtFn)
  omean dists

/-- Spec-side clipping: every feature value strictly above the constant
threshold 10000 is clipped to the threshold. -/
def clipRowQ (r : Vec) : Vec := r.map clipQ

/-- Spec-side PCA projection: subtract the reference sample mean, then
apply the transposed principal-vector matrix. -/
def pcaProjectQ (PV : Mat) (meanSample : Vec) (r : Vec) : Vec :=
  (transposeM PV).map (fun pvr => dot pvr (vsub r meanSample))

/-- Arithmetic mean of a list of rationals. -/
def listMean (l : List ℚ) : ℚ := l.sum / (l.length : ℚ)

/-- Spec-side projected-mode score, written from the specification words:
clip, project every block feature through the reference PCA model, and
take the mean over all reduced samples of their Mahalanobis distances
computed with the pseudo-inverse of the averaged covariance. -/
def ilniqe_spec (sqrtFn : ℚ → ℚ) (pinvFn : Mat → Mat) (mu_pris : Vec) (cov_pris : Mat)
    (PV : Mat) (meanSample : Vec) (D : Mat) : ℚ :=
  let reduced := D.map (fun r => pcaProjectQ PV meanSample (clipRowQ r))
  let invcov := pinvFn (mhalf (madd cov_pris (sample_cov reduced)))
  listMean (reduced.map (fun y => sqrtFn (quadForm invcov (vsub y mu_pris))))

/-- Lift a finite feature matrix into the NaN-aware representation. -/
def toOM (D : Mat) : List (List OQ) := D.map (fun r => r.map some)

/-- Spec-side step (a) of the block feature extractor, written from the
specification words: the AGGD shape and the average of the two scales for
the primary structure channel, then the (alpha, mean, beta_l, beta_r)
quadruple for the pairwise-shift product along the horizontal, vertical
and the two diagonal directions, 2 + 4 * 4 = 18 scalars in this order. -/
def stepA_spec (P : Prims) (blk : T4) (i : ℕ) : List OQ :=
  let m := fun y x => blk.data i 0 y x
  let primary := P.aggd blk.h blk.w m
  let quadOf := fun (s : ℤ × ℤ) =>
    let t := P.aggd blk.h blk.w (fun y x => m y x * roll2 blk.h blk.w s m y x)
    [t.1, omul (osub t.2.2 t.2.1) (t.1.map P.gamExp), t.2.1, t.2.2]
  [primary.1, ohalf (oadd primary.2.1 primary.2.2)]
    ++ quadOf (0, 1) ++ quadOf (1, 0) ++ quadOf (1, 1) ++ quadOf (1, -1)

/-- Trivial primitive instantiation used to evaluate the pipeline on
concrete inputs. -/
def P0 : Prims :=
  { aggd := fun _ _ _ => (some 0, some 0, some 0),
    weib := fun _ => (some 0, some 0),
    gamExp := fun _ => 0 }

/-- A single-image, single-channel 96 x 96 constant batch: a well-formed
input for the simple (NIQE) variant holding exactly one block. -/
def img96 : T4 := { b := 1, c := 1, h := 96, w := 96, data := fun _ _ _ _ => 0 }

/-- An image smaller than one 96x96 block in its height. -/
def img50 : T4 := { b := 1, c := 1, h := 50, w := 100, data := fun _ _ _ _ => 0 }

/-- A 3-channel test image. -/
def img3a : T4 := { b := 1, c := 3, h := 96, w := 96, data := fun _ _ _ _ => 1 }

/-- A second, different 3-channel test image. -/
def img3b : T4 := { b := 1, c := 3, h := 96, w := 96, data := fun _ _ _ _ => 2 }

lemma allSome_map_some (l : List ℚ) : allSome (l.map some) = some l := by
  induction l with
  | nil => rfl
  | cons x xs ih => simp [allSome, ih]

lemma ozipSub_map_some (u v : Vec) : ozipSub u (v.map some) = (vsub u v).map some := by
  induction u generalizing v with
  | nil => simp [ozipSub, vsub]
  | cons x xs ih =>
    cases v with
    | nil => simp [ozipSub, vsub]
    | cons y ys => simpa [ozipSub, vsub] using ih ys

lemma dot_neg_right (u v : Vec) : dot u (vneg v) = -(dot u v) := by
  induction u generalizing v with
  | nil => simp [dot, vneg]
  | cons x xs ih =>
    cases v with
    | nil => simp [dot, vneg]
    | cons y ys =>
      simp only [dot, vneg, List.map_cons, List.zipWith_cons_cons, List.sum_cons] at *
      rw [ih ys]; ring

lemma dot_neg_left (u v : Vec) : dot (vneg u) v = -(dot u v) := by
  induction u generalizing v with
  | nil => simp [dot, vneg]
  | cons x xs ih =>
    cases v with
    | nil => simp [dot, vneg]
    | cons y ys =>
      simp only [dot, vneg, List.map_cons, List.zipWith_cons_cons, List.sum_cons] at *
      rw [ih ys]; ring

lemma matVec_neg (M : Mat) (v : Vec) : matVec M (vneg v) = vneg (matVec M v) := by
  simp only [matVec, vneg, List.map_map, Function.comp]
  exact List.map_congr_left (fun r _ => dot_neg_right r v)

lemma quadForm_neg (M : Mat) (v : Vec) : quadForm M (vneg v) = quadForm M v := by
  simp [quadForm, matVec_neg, dot_neg_left, dot_neg_right]

lemma vsub_eq_neg_swap (a b : Vec) : vsub a b = vneg (vsub b a) := by
  induction a generalizing b with
  | nil => cases b <;> simp [vsub, vneg]
  | cons x xs ih =>
    cases b with
    | nil => simp [vsub, vneg]
    | cons y ys => simpa [vsub, vneg] using ih ys

lemma quadForm_vsub_swap (M : Mat) (a b : Vec) :
    quadForm M (vsub a b) = quadForm M (vsub b a) := by
  rw [vsub_eq_neg_swap a b, quadForm_neg]

lemma vsub_vadd_cancel (a b t : Vec) (h1 : a.length = b.length) (h2 : t.length = a.length) :
    vsub (vadd a t) (vadd b t) = vsub a b := by
  induction a generalizing b t with
  | nil =>
    cases b with
    | nil => simp [vadd, vsub]
    | cons y ys => simp at h1
  | cons x xs ih =>
    cases b with
    | nil => simp at h1
    | cons y ys =>
      cases t with
      | nil => simp at h2
      | cons z zs =>
        simp only [vadd, vsub, List.zipWith_cons_cons]
        have := ih ys zs (by simpa using h1) (by simpa using h2)
        simp only [vadd, vsub] at this
        rw [this]
        congr 1
        ring

lemma simpleFeats_eq_stepA (P : Prims) (blk : T4) (i : ℕ) :
    simpleFeats P blk i = stepA_spec P blk i := by
  simp only [simpleFeats, stepA_spec, shifts, List.flatMap_cons, List.flatMap_nil,
    List.append_nil, List.append_assoc]

/-- Claim C4: for every input block, step (a) of the block feature
extractor produces exactly 18 scalar values — the AGGD shape alpha and
the average (beta_l + beta_r)/2 of the primary structure channel,
followed by the 4 values (alpha, mean, beta_l, beta_r) for each of the
four pairwise-shift products along the horizontal, vertical and the two
diagonal directions. -/
theorem claim_C4_stepA_eighteen_features (P : Prims) (blk : T4) :
    compute_feature P blk false = Except.ok ((List.range blk.b).map (stepA_spec P blk)) ∧
    ∀ i, (stepA_spec P blk i).length = 18 := by
  constructor
  · simp only [compute_feature, Bool.false_eq_true, if_false]
    exact congrArg Except.ok (List.map_congr_left (fun i _ => simpleFeats_eq_stepA P blk i))
  · intro i
    simp [stepA_spec]

/-- Claim C1: in the simple (NIQE) variant the per-block loop body does
not restrict the extractor to the block crop and does not stay on step
(a): the block_pos list is bound to the ilniqe parameter, reads as truthy
and sends the extractor down the rich branch, which fails on the
single-channel normalized map while trying to reshape an empty channel
slice.  Evaluated at the first block of a valid 1x1x96x96 input. -/
theorem claim_C1_niqe_block_call_bug :
    pyTruthy (blockPos 0 0 96 96 1) = true ∧
    niqe_block_feat P0 img96 (blockPos 0 0 96 96 1) =
      Except.error "cannot reshape tensor of 0 elements" :=
  ⟨rfl, rfl⟩

/-- Claim C9: the NIQE pipeline is expected to produce, for every valid
input, a concatenated per-image feature matrix of shape
(num_block_h * num_block_w, 36); on the code as written the pipeline
instead raises inside the first block call (the block_pos list is bound
to the ilniqe parameter), so no feature matrix is ever produced.
Evaluated at a valid 1x1x96x96 input. -/
theorem claim_C9_pipeline_crash :
    niqe_run P0 id (fun _ _ _ _ _ => 0) id id [] [] 96 96 (PyTensor.mk4 img96) =
      Except.error "cannot reshape tensor of 0 elements" :=
  rfl

/-- Claim C2: for every block-feature matrix whose fitted mean is free of
NaN, the direct-mode NIQE score equals the spec-side value
sqrt(diff . pinv((cov_ref + cov_sample)/2) . diff) with diff the sample
mean minus the reference mean (the code computes the reference mean minus
the sample mean; the quadratic form makes the two equal), the combined
covariance being inverted through the pseudo-inverse function. -/
theorem claim_C2_direct_mahalanobis_formula (sqrtFn : ℚ → ℚ) (pinvFn : Mat → Mat)
    (mu_pris mu_s : Vec) (cov_pris : Mat) (M : List (List OQ))
    (hmu : niqe_fit_mu M = mu_s.map some) :
    niqe_quality sqrtFn pinvFn mu_pris cov_pris M =
      some (mahalanobis_spec sqrtFn pinvFn mu_pris mu_s cov_pris (niqe_fit_cov M)) := by
  simp only [niqe_quality, mahalanobis_spec, hmu, ozipSub_map_some, oquadForm,
    allSome_map_some, Option.map_some']
  rw [quadForm_vsub_swap]

/-- Witness for claim C2 at a concrete 2-block, 2-feature matrix. -/
theorem claim_C2_direct_mahalanobis_formula_witness :
    niqe_fit_mu [[some 1, some 2], [some 3, some 4]] = ([2, 3] : Vec).map some ∧
    niqe_quality id id [0, 0] [[0, 0], [0, 0]] [[some 1, some 2], [some 3, some 4]] =
      some (mahalanobis_spec id id [0, 0] [2, 3] [[0, 0], [0, 0]]
        (niqe_fit_cov [[some 1, some 2], [some 3, some 4]])) :=
  ⟨by simp [niqe_fit_mu, nanmean_cols, colOf, nanmeanL, List.range_succ]; norm_num,
   claim_C2_direct_mahalanobis_formula id id [0, 0] [2, 3] [[0, 0], [0, 0]]
     [[some 1, some 2], [some 3, some 4]]
     (by simp [niqe_fit_mu, nanmean_cols, colOf, nanmeanL, List.range_succ]; norm_num)⟩

/-- Claim C8: the direct-mode distance stage is invariant under
translating the reference mean and the fitted sample mean by the same
constant vector, the covariance (fitted from the block-feature matrix)
being unaffected: only the difference of the two means enters the
formula. -/
theorem claim_C8_translation_invariance (sqrtFn : ℚ → ℚ) (pinvFn : Mat → Mat)
    (mu_pris mu_dist t : Vec) (cov_pris : Mat) (M : List (List OQ))
    (h1 : mu_pris.length = mu_dist.length) (h2 : t.length = mu_pris.length) :
    niqe_distance sqrtFn pinvFn (vadd mu_pris t) (vadd mu_dist t) cov_pris (niqe_fit_cov M) =
      niqe_distance sqrtFn pinvFn mu_pris mu_dist cov_pris (niqe_fit_cov M) := by
  simp only [niqe_distance]
  rw [vsub_vadd_cancel mu_pris mu_dist t h1 h2]

/-- Witness for claim C8 at concrete means, translation and matrix. -/
theorem claim_C8_translation_invariance_witness :
    (([1, 2] : Vec).length = ([3, 5] : Vec).length ∧ ([7, 9] : Vec).length = ([1, 2] : Vec).length) ∧
    niqe_distance id id (vadd [1, 2] [7, 9]) (vadd [3, 5] [7, 9]) [[1, 0], [0, 1]]
        (niqe_fit_cov [[some 1, some 2], [some 3, some 4]]) =
      niqe_distance id id [1, 2] [3, 5] [[1, 0], [0, 1]]
        (niqe_fit_cov [[some 1, some 2], [some 3, some 4]]) :=
  ⟨⟨rfl, rfl⟩,
   claim_C8_translation_invariance id id [1, 2] [3, 5] [7, 9] [[1, 0], [0, 1]]
     [[some 1, some 2], [some 3, some 4]] rfl rfl⟩

lemma getD_replicate_none (k j : ℕ) : (List.replicate k (none : OQ)).getD j none = none := by
  induction k generalizing j with
  | zero => simp
  | succ n ih =>
    cases j with
    | zero => simp [List.replicate]
    | succ m => simp [List.replicate, ih m]

lemma colOf_append_nanrow (M : List (List OQ)) (k j : ℕ) :
    colOf (M ++ [List.replicate k none]) j = colOf M j ++ [none] := by
  simp [colOf, getD_replicate_none]

lemma nanmeanL_append_none (l : List OQ) : nanmeanL (l ++ [none]) = nanmeanL l := by
  simp [nanmeanL]

lemma headD_append_of_ne_nil (M : List (List OQ)) (l : List (List OQ)) (h : M ≠ []) :
    (M ++ l).headD [] = M.headD [] := by
  cases M with
  | nil => exact absurd rfl h
  | cons r rs => rfl

lemma allSome_isSome (v : List OQ) (h : ∀ o ∈ v, o.isSome) : (allSome v).isSome = true := by
  induction v with
  | nil => rfl
  | cons o os ih =>
    obtain ⟨y, rfl⟩ := Option.isSome_iff_exists.mp (h o (List.mem_cons_self o os))
    have h2 := ih (fun o ho => h o (List.mem_cons_of_mem _ ho))
    simp only [allSome, Option.isSome_map']
    exact h2

lemma ozipSub_all_isSome (u : Vec) (v : List OQ) (h : ∀ o ∈ v, o.isSome) :
    ∀ e ∈ ozipSub u v, e.isSome := by
  induction u generalizing v with
  | nil => intro e he; simp [ozipSub] at he
  | cons x xs ih =>
    cases v with
    | nil => intro e he; simp [ozipSub] at he
    | cons o os =>
      obtain ⟨y, rfl⟩ := Option.isSome_iff_exists.mp (h o (List.mem_cons_self o os))
      intro e he
      simp only [ozipSub, List.zipWith_cons_cons, List.mem_cons] at he
      rcases he with rfl | he
      · rfl
      · exact ih os (fun o ho => h o (List.mem_cons_of_mem _ ho)) e he

lemma nanmeanL_isSome (l : List OQ) (o : OQ) (ho : o ∈ l) (hs : o.isSome) :
    (nanmeanL l).isSome = true := by
  obtain ⟨y, rfl⟩ := Option.isSome_iff_exists.mp hs
  have hy : y ∈ l.filterMap id := List.mem_filterMap.mpr ⟨some y, ho, rfl⟩
  have hne : l.filterMap id ≠ [] := List.ne_nil_of_mem hy
  simp [nanmeanL, List.isEmpty_iff, hne]

/-- Counterexample for claim C5: the claim predicts that an entirely-NaN
block row is excluded from the covariance estimation, but the direct-mode
code replaces it by an all-zero row (torch.nan_to_num before torch_cov),
which changes the fitted covariance. -/
theorem claim_C5_nan_row_counterexample :
    niqe_fit_cov [[some 1], [some 3], [none]] ≠ niqe_fit_cov [[some 1], [some 3]] := by
  simp [niqe_fit_cov, nan_to_num, sample_cov, colMean, List.range_succ]
  norm_num

/-- Claim C5 (amended): in direct mode the sample mean ignores NaN
entries per feature, so appending an entirely-NaN block row leaves the
fitted mean unchanged; the covariance however is computed on the
NaN-to-zero filled matrix, so the entirely-NaN row enters it as an
all-zero row rather than being excluded; and the score is a well-defined
(finite) value whenever every feature column holds at least one valid
entry. -/
theorem claim_C5_nan_handling_amended (sqrtFn : ℚ → ℚ) (pinvFn : Mat → Mat)
    (mu_pris : Vec) (cov_pris : Mat) (M : List (List OQ)) (k : ℕ) :
    (M ≠ [] → niqe_fit_mu (M ++ [List.replicate k none]) = niqe_fit_mu M) ∧
    niqe_fit_cov (M ++ [List.replicate k none]) =
      sample_cov (nan_to_num M ++ [List.replicate k 0]) ∧
    ((∀ j < (M.headD []).length, ∃ o ∈ colOf M j, o.isSome) →
      (niqe_quality sqrtFn pinvFn mu_pris cov_pris M).isSome = true) := by
  refine ⟨?_, ?_, ?_⟩
  · intro hM
    simp only [niqe_fit_mu, nanmean_cols, headD_append_of_ne_nil M _ hM]
    exact List.map_congr_left (fun j _ => by rw [colOf_append_nanrow, nanmeanL_append_none])
  · simp [niqe_fit_cov, nan_to_num, List.map_replicate]
  · intro hcols
    have hmu : ∀ o ∈ niqe_fit_mu M, o.isSome := by
      intro o ho
      simp only [niqe_fit_mu, nanmean_cols, List.mem_map, List.mem_range] at ho
      obtain ⟨j, hj, rfl⟩ := ho
      obtain ⟨e, he, hes⟩ := hcols j hj
      exact nanmeanL_isSome _ e he hes
    simp only [niqe_quality, oquadForm, Option.isSome_map']
    exact allSome_isSome _ (ozipSub_all_isSome mu_pris _ hmu)

/-- Witness for the amended claim C5 at a concrete 2-block, 1-feature
matrix with one appended all-NaN row. -/
theorem claim_C5_nan_handling_amended_witness :
    (([[some 1], [some 3]] : List (List OQ)) ≠ [] ∧
      (∀ j < (([[some 1], [some 3]] : List (List OQ)).headD []).length,
        ∃ o ∈ colOf [[some 1], [some 3]] j, o.isSome)) ∧
    (niqe_fit_mu ([[some 1], [some 3]] ++ [List.replicate 1 none]) =
        niqe_fit_mu [[some 1], [some 3]] ∧
      niqe_fit_cov ([[some 1], [some 3]] ++ [List.replicate 1 none]) =
        sample_cov (nan_to_num [[some 1], [some 3]] ++ [List.replicate 1 0]) ∧
      (niqe_quality id id [0] [[0]] [[some 1], [some 3]]).isSome = true) := by
  have h1 : ([[some 1], [some 3]] : List (List OQ)) ≠ [] := by simp
  have h2 : ∀ j < (([[some 1], [some 3]] : List (List OQ)).headD []).length,
      ∃ o ∈ colOf [[some 1], [some 3]] j, o.isSome := by
    intro j hj
    simp only [List.headD_cons, List.length_cons, List.length_nil] at hj
    have hj0 : j = 0 := by omega
    subst hj0
    exact ⟨some 1, by simp [colOf], rfl⟩
  have main := claim_C5_nan_handling_amended id id [0] [[0]] [[some 1], [some 3]] 1
  exact ⟨⟨h1, h2⟩, main.1 h1, main.2.1, main.2.2 h2⟩

lemma blockStart_of_dvd (i scale k : ℕ) (hs : 0 < scale) :
    blockStart i (scale * k) scale = i * k := by
  unfold blockStart
  rw [mul_comm scale k, ← mul_assoc, Nat.mul_div_cancel _ hs]

/-- Claim C6: before block partitioning each spatial dimension is
truncated to the largest multiple of the block size (the remainder,
smaller than one block, is discarded and never padded); the resize to the
second pyramid scale floors each dimension to half; consecutive blocks
abut exactly; and at each scale every position of the truncated region
lies in exactly one block. -/
theorem claim_C6_block_tiling (h bs scale : ℕ) (hbs : 0 < bs)
    (hsc : scale = 1 ∨ scale = 2) (hdvd : scale ∣ bs) :
    (num_blocks h bs * bs ≤ h ∧ h - num_blocks h bs * bs < bs) ∧
    (∀ ker t, (halfResize ker t).h = t.h / 2 ∧ (halfResize ker t).w = t.w / 2) ∧
    (∀ i, blockEnd i bs scale = blockStart (i + 1) bs scale) ∧
    (∀ pos, pos < num_blocks h bs * bs / scale →
      ∃! i, i < num_blocks h bs ∧ blockStart i bs scale ≤ pos ∧ pos < blockEnd i bs scale) := by
  have hs : 0 < scale := by rcases hsc with rfl | rfl <;> norm_num
  obtain ⟨k, hk⟩ := hdvd
  have hkpos : 0 < k := by
    rcases Nat.eq_zero_or_pos k with rfl | hp
    · rw [hk, mul_zero] at hbs; exact absurd hbs (by norm_num)
    · exact hp
  refine ⟨⟨Nat.div_mul_le_self h bs, ?_⟩, fun ker t => ⟨rfl, rfl⟩, fun i => rfl, ?_⟩
  · have h1 := Nat.div_add_mod h bs
    have h2 := Nat.mod_lt h hbs
    have h3 : num_blocks h bs * bs = bs * (h / bs) := by
      unfold num_blocks; rw [mul_comm]
    omega
  · intro pos hpos
    subst hk
    have hregion : num_blocks h (scale * k) * (scale * k) / scale = num_blocks h (scale * k) * k := by
      rw [mul_comm scale k, ← mul_assoc, Nat.mul_div_cancel _ hs]
    rw [hregion] at hpos
    refine ⟨pos / k, ⟨?_, ?_, ?_⟩, ?_⟩
    · exact (Nat.div_lt_iff_lt_mul hkpos).mpr hpos
    · rw [blockStart_of_dvd _ _ _ hs]
      exact Nat.div_mul_le_self pos k
    · show pos < blockEnd (pos / k) (scale * k) scale
      unfold blockEnd
      rw [show (pos / k + 1) * (scale * k) = (pos / k + 1) * k * scale by ring,
        Nat.mul_div_cancel _ hs]
      have h1 := Nat.div_add_mod pos k
      have h2 := Nat.mod_lt pos hkpos
      have h3 : (pos / k + 1) * k = k * (pos / k) + k := by ring
      omega
    · rintro j ⟨hj, hj1, hj2⟩
      rw [blockStart_of_dvd _ _ _ hs] at hj1
      unfold blockEnd at hj2
      rw [show (j + 1) * (scale * k) = (j + 1) * k * scale by ring,
        Nat.mul_div_cancel _ hs] at hj2
      have hle : j ≤ pos / k := (Nat.le_div_iff_mul_le hkpos).mpr hj1
      have hlt : pos / k < j + 1 := (Nat.div_lt_iff_lt_mul hkpos).mpr hj2
      omega

/-- Witness for claim C6 at a 200-pixel dimension, 96-pixel blocks and
pyramid scale 2. -/
theorem claim_C6_block_tiling_witness :
    (0 < 96 ∧ ((2 : ℕ) = 1 ∨ (2 : ℕ) = 2) ∧ (2 : ℕ) ∣ 96) ∧
    ((num_blocks 200 96 * 96 ≤ 200 ∧ 200 - num_blocks 200 96 * 96 < 96) ∧
      (∀ ker t, (halfResize ker t).h = t.h / 2 ∧ (halfResize ker t).w = t.w / 2) ∧
      (∀ i, blockEnd i 96 2 = blockStart (i + 1) 96 2) ∧
      (∀ pos, pos < num_blocks 200 96 * 96 / 2 →
        ∃! i, i < num_blocks 200 96 ∧ blockStart i 96 2 ≤ pos ∧ pos < blockEnd i 96 2)) :=
  ⟨⟨by norm_num, Or.inr rfl, by norm_num⟩,
    claim_C6_block_tiling 200 96 2 (by norm_num) (Or.inr rfl) (by norm_num)⟩

lemma flatMap_const_nil {α β : Type} (l : List α) :
    (l.flatMap fun _ => ([] : List β)) = [] := by
  induction l with
  | nil => rfl
  | cons x xs ih => simp [ih]

lemma niqe_scale_feats_empty (P : Prims) (normFn : T4 → T4) (img : T4)
    (nbh nbw bsh bsw scale : ℕ) (hz : nbh = 0 ∨ nbw = 0) :
    niqe_scale_feats P normFn img nbh nbw bsh bsw scale =
      Except.error "stack expects a non-empty TensorList" := by
  have hpos : (List.range nbw).flatMap
      (fun iw => (List.range nbh).map (fun ih => blockPos ih iw bsh bsw scale)) = [] := by
    rcases hz with rfl | rfl
    · simp [flatMap_const_nil]
    · simp
  simp only [niqe_scale_feats, hpos]
  rfl

/-- Claim C7: a non-4-dimensional input batch is rejected immediately by
the entry assertion with its descriptive message, and an image smaller
than one block in either spatial dimension makes the scoring function
raise (the block grid is empty, so stacking the per-block features
fails); in both cases the error is never recovered and no score is
produced. -/
theorem claim_C7_input_validation (P : Prims) (normFn : T4 → T4)
    (dsKer : T4 → ℕ → ℕ → ℕ → ℕ → ℚ) (sqrtFn : ℚ → ℚ) (pinvFn : Mat → Mat)
    (mu_pris : Vec) (cov_pris : Mat) (bsh bsw : ℕ) :
    (∀ n, n ≠ 4 →
      niqe_run P normFn dsKer sqrtFn pinvFn mu_pris cov_pris bsh bsw (PyTensor.mkOther n) =
        Except.error assertMsg) ∧
    (∀ t : T4, t.h < bsh ∨ t.w < bsw →
      isErr (niqe_run P normFn dsKer sqrtFn pinvFn mu_pris cov_pris bsh bsw (PyTensor.mk4 t)) =
        true) := by
  constructor
  · intro n _
    rfl
  · intro t ht
    have hz : num_blocks t.h bsh = 0 ∨ num_blocks t.w bsw = 0 := by
      rcases ht with hlt | hlt
      · exact Or.inl (Nat.div_eq_of_lt hlt)
      · exact Or.inr (Nat.div_eq_of_lt hlt)
    simp only [niqe_run]
    rw [niqe_scale_feats_empty P normFn _ _ _ _ _ _ hz]
    rfl

/-- Witness for claim C7: a 3-dimensional tensor and a 50x100 image
against 96x96 blocks. -/
theorem claim_C7_input_validation_witness :
    ((3 : ℕ) ≠ 4 ∧ img50.h < 96 ∨ img50.w < 96) ∧
    niqe_run P0 id (fun _ _ _ _ _ => 0) id id [] [] 96 96 (PyTensor.mkOther 3) =
      Except.error assertMsg ∧
    isErr (niqe_run P0 id (fun _ _ _ _ _ => 0) id id [] [] 96 96 (PyTensor.mk4 img50)) = true :=
  ⟨Or.inl ⟨by norm_num, by norm_num [img50]⟩,
    (claim_C7_input_validation P0 id (fun _ _ _ _ _ => 0) id id [] [] 96 96).1 3 (by norm_num),
    (claim_C7_input_validation P0 id (fun _ _ _ _ _ => 0) id id [] [] 96 96).2 img50
      (Or.inl (by norm_num [img50]))⟩

/-- Claim C10: with test_y_channel enabled and 3-channel inputs, the
NIQE score factors through the Y-channel conversion — two batches with
equal converted Y channels receive equal results from calculate_niqe
under the same reference model. -/
theorem claim_C10_y_channel_determinism (P : Prims) (normFn : T4 → T4)
    (dsKer : T4 → ℕ → ℕ → ℕ → ℕ → ℚ) (sqrtFn : ℚ → ℚ) (pinvFn : Mat → Mat)
    (toY : T4 → T4) (mu_pris : Vec) (cov_pris : Mat) (cb : ℕ) (a b : T4)
    (ha : a.c = 3) (hb : b.c = 3) (hy : toY a = toY b) :
    calculate_niqe P normFn dsKer sqrtFn pinvFn toY mu_pris cov_pris cb true a =
      calculate_niqe P normFn dsKer sqrtFn pinvFn toY mu_pris cov_pris cb true b := by
  simp [calculate_niqe, ha, hb, hy]

/-- Witness for claim C10: two different 3-channel images identified by a
constant Y-channel conversion. -/
theorem claim_C10_y_channel_determinism_witness :
    (img3a.c = 3 ∧ img3b.c = 3 ∧ (fun _ => img96 : T4 → T4) img3a = (fun _ => img96 : T4 → T4) img3b) ∧
    calculate_niqe P0 id (fun _ _ _ _ _ => 0) id id (fun _ => img96) [] [] 0 true img3a =
      calculate_niqe P0 id (fun _ _ _ _ _ => 0) id id (fun _ => img96) [] [] 0 true img3b :=
  ⟨⟨rfl, rfl, rfl⟩,
    claim_C10_y_channel_determinism P0 id (fun _ _ _ _ _ => 0) id id (fun _ => img96)
      [] [] 0 img3a img3b rfl rfl rfl⟩

lemma clip_map_some (r : Vec) : (r.map some).map oclip = (clipRowQ r).map some := by
  simp [oclip, clipRowQ, List.map_map, Function.comp]

lemma osubv_map_some (r m : Vec) : osubv (r.map some) m = (vsub r m).map some := by
  induction r generalizing m with
  | nil => simp [osubv, vsub]
  | cons x xs ih =>
    cases m with
    | nil => simp [osubv, vsub]
    | cons y ys => simpa [osubv, vsub] using ih ys

lemma odotRow_map_some (u v : Vec) : odotRow u (v.map some) = some (dot u v) := by
  simp [odotRow, allSome_map_some]

lemma project_map_some (PV : Mat) (m r : Vec) :
    ilniqe_project PV m (r.map some) = (pcaProjectQ PV m r).map some := by
  simp [ilniqe_project, pcaProjectQ, osubv_map_some, odotRow_map_some, List.map_map,
    Function.comp]

lemma rowHasNone_map_some (r : Vec) : rowHasNone (r.map some) = false := by
  simp [rowHasNone, List.any_map, Function.comp]

lemma dropNanRows_toOM (D : Mat) : dropNanRows (toOM D) = toOM D := by
  apply List.filter_eq_self.mpr
  intro r hr
  obtain ⟨y, _, rfl⟩ := List.mem_map.mp hr
  simp [rowHasNone_map_some]

lemma forceQ_toOM (D : Mat) : forceQ (toOM D) = D := by
  unfold forceQ toOM
  rw [List.map_map]
  have hone : ∀ r : Vec, (r.map some).map (fun o => o.getD 0) = r := by
    intro r
    rw [List.map_map]
    simp [Function.comp_def]
  simp only [Function.comp_def]
  calc List.map (fun r : Vec => (r.map some).map (fun o => o.getD 0)) D
      = List.map (fun r : Vec => r) D := List.map_congr_left (fun r _ => hone r)
    _ = D := List.map_id' D

lemma replaceNone_map_some (y : Vec) (mu : List OQ) (h : y.length ≤ mu.length) :
    replaceNone (y.map some) mu = y.map some := by
  induction y generalizing mu with
  | nil => simp [replaceNone]
  | cons x xs ih =>
    cases mu with
    | nil => simp at h
    | cons m ms =>
      simp only [replaceNone, List.map_cons, List.zipWith_cons_cons]
      have := ih ms (by simpa using h)
      simp only [replaceNone] at this
      rw [this]

lemma toOM_headD (D : Mat) : (toOM D).headD [] = (D.headD []).map some := by
  cases D <;> rfl

lemma nanmean_cols_length (M : List (List OQ)) :
    (nanmean_cols M).length = (M.headD []).length := by
  simp [nanmean_cols]

lemma replace_all_toOM (R : Mat) (hrect : ∀ y ∈ R, y.length = (R.headD []).length) :
    (toOM R).map (fun r => replaceNone r (nanmean_cols (toOM R))) = toOM R := by
  unfold toOM
  rw [List.map_map]
  apply List.map_congr_left
  intro y hy
  show replaceNone (y.map some) (nanmean_cols (toOM R)) = y.map some
  apply replaceNone_map_some
  rw [nanmean_cols_length, toOM_headD, List.length_map, hrect y hy]

lemma dist_row_map_some (invcov : Mat) (mu_pris : Vec) (sqrtFn : ℚ → ℚ) (y : Vec) :
    (oquadForm invcov (osubv (y.map some) mu_pris)).map sqrtFn =
      some (sqrtFn (quadForm invcov (vsub y mu_pris))) := by
  rw [osubv_map_some]
  simp [oquadForm, allSome_map_some]

lemma omean_map_some (l : List ℚ) : omean (l.map some) = some (listMean l) := by
  simp [omean, allSome_map_some, listMean]

/-- Claim C3: in the rich (IL-NIQE) projected mode, for every NaN-free
raw block-feature matrix the computed score equals the spec-side value:
every feature value strictly above the constant threshold 10000 is first
clipped to the threshold, the reference sample mean is subtracted and the
result projected through the reference PCA basis, and the final score is
the mean over all reduced samples of their Mahalanobis distances against
the reference model under the pseudo-inverse of the averaged covariance. -/
theorem claim_C3_ilniqe_projected_mode (sqrtFn : ℚ → ℚ) (pinvFn : Mat → Mat)
    (mu_pris : Vec) (cov_pris : Mat) (PV : Mat) (meanSample : Vec) (D : Mat) :
    ilniqe_score sqrtFn pinvFn mu_pris cov_pris PV meanSample (toOM D) =
      some (ilniqe_spec sqrtFn pinvFn mu_pris cov_pris PV meanSample D) := by
  have hclip : ∀ E : Mat, (toOM E).map (fun r => r.map oclip) = toOM (E.map clipRowQ) := by
    intro E
    unfold toOM
    rw [List.map_map, List.map_map]
    exact List.map_congr_left (fun r _ => clip_map_some r)
  have hproj : ∀ E : Mat, (toOM E).map (fun r => ilniqe_project PV meanSample r) =
      toOM (E.map (pcaProjectQ PV meanSample)) := by
    intro E
    unfold toOM
    rw [List.map_map, List.map_map]
    exact List.map_congr_left (fun r _ => project_map_some PV meanSample r)
  have hdists : ∀ (invcov : Mat) (E : Mat),
      (toOM E).map (fun r => (oquadForm invcov (osubv r mu_pris)).map sqrtFn) =
        (E.map (fun y => sqrtFn (quadForm invcov (vsub y mu_pris)))).map some := by
    intro invcov E
    unfold toOM
    rw [List.map_map, List.map_map]
    exact List.map_congr_left (fun y _ => dist_row_map_some invcov mu_pris sqrtFn y)
  set R : Mat := (D.map clipRowQ).map (pcaProjectQ PV meanSample) with hR
  have hlen : ∀ y ∈ R, y.length = (transposeM PV).length := by
    intro y hy
    obtain ⟨z, _, rfl⟩ := List.mem_map.mp hy
    simp [pcaProjectQ]
  have hrect : ∀ y ∈ R, y.length = (R.headD []).length := by
    intro y hy
    cases hRc : R with
    | nil =>
      rw [hRc] at hy
      simp at hy
    | cons r0 rs =>
      have h0 : r0 ∈ R := by rw [hRc]; exact List.mem_cons_self r0 rs
      simp only [List.headD_cons]
      rw [hlen y hy, hlen r0 h0]
  have hfuse : List.map (fun r => pcaProjectQ PV meanSample (clipRowQ r)) D = R := by
    rw [hR, List.map_map]
    simp [Function.comp_def]
  simp only [ilniqe_score, ilniqe_spec, hclip, hproj, dropNanRows_toOM, forceQ_toOM,
    replace_all_toOM R hrect, hdists, omean_map_some, hfuse]

end NiqeArch
